import Mathlib

/-!
Verification of the winbackup-fuse core (`src/main.rs`): the tree builder
(`WinbackupTreeBuilder`), the inode index, and the read engine
(`OpenedArchive` / `WinbackupFS`).

Modelling conventions:
* Rust `String` is modelled as `List Char` (`Str`); the path separator is
  the backslash character, matching `rsplit_once('\\')` / `split('\\')`.
* `HashMap` values are modelled as association lists in insertion order;
  `assocInsert` has `HashMap::insert` semantics (replace the value at an
  existing key in place, otherwise append a fresh binding).
* The external zip library (a trusted collaborator per the spec) is a
  function `World : Str → ArchiveState`: an archive path is unreadable
  (`fs::File::open` fails and `.unwrap()` panics), corrupt
  (`ZipArchive::new` fails, mapped to `Err(())`), or valid with a listing
  of entries.  A valid entry carries its decoded name (the
  `decode_filename` output — decoding is total), metadata and decoded
  content bytes.
* Panics are modelled by `Option`: `none` means the Rust code panicked.
* `std::io::Bytes` is a stateful forward iterator; an `OpenedArchive`
  therefore stores the *remaining* decoded bytes of the entry.
-/

abbrev Str := List Char

/-- The archive-native path separator used by `rsplit_once('\\')`. -/
def sep : Char := '\\'

/-- Rust `str::split('\\')` on the directory part of a path. -/
def splitSegs : Str → List Str
  | [] => [[]]
  | c :: rest =>
    if c = sep then [] :: splitSegs rest
    else
      match splitSegs rest with
      | [] => [[c]]
      | s :: ss => (c :: s) :: ss

/-- Rust `str::rsplit_once('\\')`: split at the last separator, `none` if
the string has no separator. -/
def rsplitOnce : Str → Option (Str × Str)
  | [] => none
  | c :: rest =>
    match rsplitOnce rest with
    | some (d, n) => some (c :: d, n)
    | none => if c = sep then some ([], rest) else none

/-- Rust `FileInfo { time, size }` from the source. `SystemTime` is modelled
as an integer timestamp. -/
structure FileInfo where
  time : Int
  size : Nat
  deriving DecidableEq, Repr

/-- Rust `File { file_id, path, info }`: one scan result of an archive. -/
structure FileRec where
  file_id : Nat
  path : Str
  info : FileInfo
  deriving DecidableEq, Repr

/-- Rust `Source { archive, file_id }`: locator for re-opening an entry. -/
structure Source where
  archive : Str
  file_id : Nat
  deriving DecidableEq, Repr

/-- Rust `FSEntryInfo { info, source }`: the payload of a file node. -/
structure FSEntryInfo where
  info : FileInfo
  source : Source
  deriving DecidableEq, Repr

/-- The virtual tree `FSEntry`. Directory children are an association
list in insertion order (modelling the `HashMap<String, FSEntry>`). -/
inductive FSEntry where
  | file (ino : Nat) (info : FSEntryInfo)
  | directory (ino : Nat) (entries : List (Str × FSEntry))

/-- Rust `FSEntry::dir(ino)`: a fresh empty directory. -/
def FSEntry.dir (ino : Nat) : FSEntry := .directory ino []

/-- Association-list lookup (`HashMap::get`). -/
def assocLookup {α β : Type} [DecidableEq α] : List (α × β) → α → Option β
  | [], _ => none
  | (k', v) :: rest, k => if k' = k then some v else assocLookup rest k

/-- Association-list insert with `HashMap::insert` semantics: replace the
value bound to an existing key, otherwise append a new binding. -/
def assocInsert {α β : Type} [DecidableEq α] : List (α × β) → α → β → List (α × β)
  | [], k, v => [(k, v)]
  | (k', v') :: rest, k, v =>
    if k' = k then (k, v) :: rest else (k', v') :: assocInsert rest k v

/-- One candidate-map update: `files.get_mut(&path).push(entry)` if the
key exists, otherwise `files.insert(path, vec![entry])`. -/
def groupInsert : List (Str × List FSEntryInfo) → Str → FSEntryInfo →
    List (Str × List FSEntryInfo)
  | [], k, v => [(k, [v])]
  | (k', vs) :: rest, k, v =>
    if k' = k then (k, vs ++ [v]) :: rest else (k', vs) :: groupInsert rest k v

/-- One entry of a valid archive: directory flag, decoded name, metadata
and decoded content bytes. -/
structure ZipEntryRec where
  isDir : Bool
  name : Str
  time : Int
  size : Nat
  content : List Nat
  deriving DecidableEq, Repr

/-- State of one archive path in the outside world, as seen through the
trusted zip library. -/
inductive ArchiveState where
  | unreadable
  | corrupt
  | valid (entries : List ZipEntryRec)
  deriving DecidableEq

abbrev World := Str → ArchiveState

/-- The scan loop body of `rough_file_info`: walk the entry listing with
its positional index, skipping directory entries. -/
def scanEntries (off : Nat) : List ZipEntryRec → List FileRec
  | [] => []
  | e :: rest =>
    if e.isDir then scanEntries (off + 1) rest
    else { file_id := off, path := e.name, info := { time := e.time, size := e.size } }
      :: scanEntries (off + 1) rest

/-- Models `WinbackupTreeBuilder::rough_file_info`. The outer `Option` is panic
(`fs::File::open(path).unwrap()` on an unreadable file); the `Except` is
the `Result<Vec<File>, ()>` (corrupt container ⇒ `Err(())`). -/
def rough_file_info (w : World) (path : Str) : Option (Except Unit (List FileRec)) :=
  match w path with
  | .unreadable => none
  | .corrupt => some (.error ())
  | .valid es => some (.ok (scanEntries 0 es))

/-- Add one archive's scan results to the candidate map. -/
def addFiles (src : Str) (gs : List (Str × List FSEntryInfo)) :
    List FileRec → List (Str × List FSEntryInfo)
  | [] => gs
  | f :: rest =>
    addFiles src
      (groupInsert gs f.path { info := f.info, source := { archive := src, file_id := f.file_id } })
      rest

/-- Phase 1 of `parse_multiple_archives`: scan each archive in order,
skipping archives whose container is corrupt (`let Ok(infos) = ... else
continue`); a panic (`none`) aborts everything. -/
def collectInto (w : World) (gs : List (Str × List FSEntryInfo)) :
    List Str → Option (List (Str × List FSEntryInfo))
  | [] => some gs
  | src :: rest =>
    match rough_file_info w src with
    | none => none
    | some (.error _) => collectInto w gs rest
    | some (.ok files) => collectInto w (addFiles src gs files) rest

def collectGroups (w : World) (sources : List Str) :
    Option (List (Str × List FSEntryInfo)) :=
  collectInto w [] sources

/-- Rust `Iterator::max_by_key(|x| x.info.time)`: the maximum by
modification time, the *last* maximal element on ties. -/
def maxByTimeLast : List FSEntryInfo → Option FSEntryInfo
  | [] => none
  | x :: xs =>
    match maxByTimeLast xs with
    | none => some x
    | some m => some (if m.info.time < x.info.time then x else m)

/-- The per-path walk of `parse_multiple_archives` (lines 146–167 of the
source): follow the directory chain, creating missing directories with
fresh inodes; if a `File` node is met the walk breaks and the final
`let ... else continue` drops the insertion; otherwise the leaf is
inserted (replacing any existing child with that name). Returns the
updated tree and inode counter. -/
def insertWalk : FSEntry → Nat → List Str → Str → FSEntryInfo → FSEntry × Nat
  | .file i p, c, _, _, _ => (.file i p, c)
  | .directory i es, c, [], name, pl =>
    (.directory i (assocInsert es name (.file c pl)), c + 1)
  | .directory i es, c, s :: rest, name, pl =>
    match assocLookup es s with
    | some child =>
      let r := insertWalk child c rest name pl
      (.directory i (assocInsert es s r.1), r.2)
    | none =>
      let r := insertWalk (FSEntry.dir c) (c + 1) rest name pl
      (.directory i (assocInsert es s r.1), r.2)

/-- One iteration of the phase-2 loop: pick the newest candidate, split
off the leaf name (paths without a separator are dropped), and walk. -/
def buildStep (acc : FSEntry × Nat) (kv : Str × List FSEntryInfo) : FSEntry × Nat :=
  match maxByTimeLast kv.2 with
  | none => acc
  | some info =>
    match rsplitOnce kv.1 with
    | none => acc
    | some (d, name) => insertWalk acc.1 acc.2 (splitSegs d) name info

/-- Phase 2 of `parse_multiple_archives`: fold the candidate map into a
tree rooted at directory inode 1, with the inode counter starting at 2. -/
def buildFromGroups (gs : List (Str × List FSEntryInfo)) : FSEntry :=
  (gs.foldl buildStep (FSEntry.dir 1, 2)).1

/-- Models `WinbackupTreeBuilder::parse_multiple_archives`; `none` is a panic
during the scan phase. -/
def parse_multiple_archives (w : World) (sources : List Str) : Option FSEntry :=
  (collectGroups w sources).map buildFromGroups

/-- Navigate a tree along a list of child names. -/
def getPath : FSEntry → List Str → Option FSEntry
  | e, [] => some e
  | .directory _ es, s :: rest =>
    match assocLookup es s with
    | some c => getPath c rest
    | none => none
  | .file _ _, _ :: _ => none

mutual
/-- All inodes of a tree, one occurrence per node. -/
def inodesOf : FSEntry → List Nat
  | .file i _ => [i]
  | .directory i es => i :: inodesOfList es

def inodesOfList : List (Str × FSEntry) → List Nat
  | [] => []
  | (_, e) :: rest => inodesOf e ++ inodesOfList rest
end

mutual
/-- Models `build_filesystem_map`: flatten the tree into the inode index. -/
def build_filesystem_map (root : FSEntry) (m : List (Nat × FSEntry)) :
    List (Nat × FSEntry) :=
  match root with
  | .file i _ => assocInsert m i root
  | .directory i es => buildMapList es (assocInsert m i (.directory i es))

/-- Helper for `build_filesystem_map` over a children list. -/
def buildMapList (es : List (Str × FSEntry)) (m : List (Nat × FSEntry)) :
    List (Nat × FSEntry) :=
  match es with
  | [] => m
  | (_, e) :: rest => buildMapList rest (build_filesystem_map e m)
end

/-- Models `OwnedZipFileBytes::open(archive, file_id)`: re-open the archive and
start decoding the entry from its start.  Every failure in the source is
an `.unwrap()` — a vanished or corrupt archive, or an out-of-range entry
id, panics (`none`).  The result is the entry's decoded byte stream. -/
def OwnedZipFileBytes.open (w : World) (archive : Str) (file_id : Nat) :
    Option (List Nat) :=
  match w archive with
  | .valid es => (es.get? file_id).map (·.content)
  | _ => none

/-- Rust `OpenedArchive { offset, content }`: per-handle decoder state.
`content` is the remaining undecoded suffix of the entry's byte stream
(the state of the `std::io::Bytes` iterator). -/
structure OpenedArchive where
  offset : Nat
  content : List Nat
  deriving DecidableEq, Repr

/-- Models `OpenedArchive::open(source)`; panics (`none`) when the source
cannot be re-opened. -/
def OpenedArchive.open (w : World) (src : Source) : Option OpenedArchive :=
  (OwnedZipFileBytes.open w src.archive src.file_id).map ({ offset := 0, content := · })

/-- Models `OpenedArchive::is_viable(offset)`: `offset >= self.offset`. -/
def OpenedArchive.is_viable (a : OpenedArchive) (offset : Nat) : Bool :=
  a.offset ≤ offset

/-- Models `OpenedArchive::read_bytes(offset, size)`: skip
`offset - self.offset` decoded bytes, take up to `size`, and set
`self.offset = offset + size`.  Returns the bytes and the new state.
(The call sites guarantee `self.offset ≤ offset`, so the truncated `Nat`
subtraction coincides with the `usize` subtraction of the source.) -/
def OpenedArchive.read_bytes (a : OpenedArchive) (offset size : Nat) :
    List Nat × OpenedArchive :=
  let to_skip := offset - a.offset
  ((a.content.drop to_skip).take size,
    { offset := offset + size, content := a.content.drop (to_skip + size) })

/-- The mutable state of `WinbackupFS`: the inode index, the handle
table and the handle counter. -/
structure WinbackupFS where
  filesystem : List (Nat × FSEntry)
  handlers : List (Nat × OpenedArchive)
  handlers_counter : Nat

/-- A FUSE reply: either data bytes or the uniform `ENOENT` error. -/
inductive ReadReply where
  | data (bytes : List Nat)
  | enoent
  deriving DecidableEq, Repr

/-- A lookup reply: the child node (whose attributes are returned) or
`ENOENT`. -/
inductive LookupReply where
  | entry (child : FSEntry)
  | enoent

/-- Models `WinbackupFS::open`: hand out the next handle id; no decoder state
is created yet. -/
def WinbackupFS.fsopen (fs : WinbackupFS) : Nat × WinbackupFS :=
  (fs.handlers_counter, { fs with handlers_counter := fs.handlers_counter + 1 })

/-- Models `WinbackupFS::release`: drop the handle's state. -/
def assocErase {α β : Type} [DecidableEq α] : List (α × β) → α → List (α × β)
  | [], _ => []
  | (k', v) :: rest, k => if k' = k then rest else (k', v) :: assocErase rest k

def WinbackupFS.release (fs : WinbackupFS) (fh : Nat) : WinbackupFS :=
  { fs with handlers := assocErase fs.handlers fh }

/-- Models `WinbackupFS::lookup(parent, name)`.  The `name : Option Str`
models `OsStr::to_str()`: `none` stands for a name whose bytes are not
valid UTF-8, on which `to_str` fails. -/
def WinbackupFS.lookup (fs : WinbackupFS) (parent : Nat) (name : Option Str) :
    LookupReply :=
  match assocLookup fs.filesystem parent with
  | some (.directory _ entries) =>
    match name with
    | none => .enoent
    | some n =>
      match assocLookup entries n with
      | some child => .entry child
      | none => .enoent
  | _ => .enoent

/-- Models `WinbackupFS::read(ino, fh, offset, size)`.  The source matches on
`self.handlers.entry(fh)`: an occupied entry whose state `is_viable` for
the offset is reused as is (the inode is not consulted); otherwise the
inode must resolve to a `File` node (else `reply.error(ENOENT)` with the
handle table untouched) and a fresh `OpenedArchive` is opened (panicking
— `none` — if the source is unresolvable) and stored at `fh`, replacing
any stale state.  The reply and the updated state are returned. -/
def WinbackupFS.read (w : World) (fs : WinbackupFS)
    (ino fh offset size : Nat) : Option (ReadReply × WinbackupFS) :=
  let viable : Option OpenedArchive :=
    match assocLookup fs.handlers fh with
    | some a => if a.is_viable offset then some a else none
    | none => none
  match viable with
  | some a =>
    let r := a.read_bytes offset size
    some (.data r.1, { fs with handlers := assocInsert fs.handlers fh r.2 })
  | none =>
    match assocLookup fs.filesystem ino with
    | some (.file _ info) =>
      match OpenedArchive.open w info.source with
      | some a =>
        let r := a.read_bytes offset size
        some (.data r.1, { fs with handlers := assocInsert fs.handlers fh r.2 })
      | none => none
    | _ => some (.enoent, fs)

/-- The invariant carried through the phase-2 fold: the accumulator is a
directory rooted at inode 1, the counter is at least 2, inodes are
pairwise distinct, and every inode is 1 (the root) or in `[2, counter)`. -/
def BuildInv (acc : FSEntry × Nat) : Prop :=
  (∃ es, acc.1 = .directory 1 es) ∧ 2 ≤ acc.2 ∧
  (inodesOf acc.1).Nodup ∧ (∀ x ∈ inodesOf acc.1, x = 1 ∨ (2 ≤ x ∧ x < acc.2))

/-- Holds when the tree has a `File` node at the given position. -/
def FileAt (t : FSEntry) (pos : List Str) : Prop :=
  ∃ i pl, getPath t pos = some (.file i pl)

/-- The keys of an association list. -/
def keysOf {α β : Type} (l : List (α × β)) : List α := l.map Prod.fst

/-! ### Concrete fixtures for counterexamples and witnesses -/

def archA : Str := ['A']

def archB : Str := ['B']

/-- A path with no separator (`rsplit_once` fails on it). -/
def pathNoSep : Str := ['a']

/-- The path `x\a`. -/
def pathXA : Str := ['x', '\\', 'a']

/-- The path `x\a\b`. -/
def pathXAB : Str := ['x', '\\', 'a', '\\', 'b']

/-- Two archives both holding the separator-free path `a`, at distinct
modification times 100 and 200. -/
def worldNoSep : World := fun s =>
  if s = archA then .valid [⟨false, pathNoSep, 100, 3, [1, 2, 3]⟩]
  else if s = archB then .valid [⟨false, pathNoSep, 200, 4, [4, 5, 6, 7]⟩]
  else .unreadable

/-- Archive `A` is unreadable (its `fs::File::open` fails); archive `B`
is valid and holds `x\a`. -/
def worldUnreadable : World := fun s =>
  if s = archB then .valid [⟨false, pathXA, 200, 4, [4, 5, 6, 7]⟩]
  else .unreadable

/-- A world where only archive `A` exists, holding a single 30-byte
entry named `x\a`. -/
def worldRead : World := fun s =>
  if s = archA then .valid [⟨false, pathXA, 100, 30, List.range 30⟩]
  else .unreadable

/-- The payload of the single file of `worldRead`. -/
def fsInfoA : FSEntryInfo := ⟨⟨100, 30⟩, ⟨archA, 0⟩⟩

/-- An inode index exposing that file at inode 2. -/
def fsRead : WinbackupFS := ⟨[(2, .file 2 fsInfoA)], [], 0⟩

/-- A state whose handle 7 holds live viable decoder state while the
inode index is empty. -/
def fsStale : WinbackupFS := ⟨[], [(7, ⟨0, [1, 2, 3]⟩)], 8⟩

/-- A file node whose source archive `B` has vanished in `worldRead`. -/
def fsVanished : WinbackupFS := ⟨[(2, .file 2 ⟨⟨100, 30⟩, ⟨archB, 0⟩⟩)], [], 0⟩

/-- A world where archive `A` holds a single 60-byte entry named `x\a`. -/
def worldRead60 : World := fun s =>
  if s = archA then .valid [⟨false, pathXA, 100, 60, List.range 60⟩]
  else .unreadable

/-- The payload of the single file of `worldRead60`. -/
def fsInfoA60 : FSEntryInfo := ⟨⟨100, 60⟩, ⟨archA, 0⟩⟩

/-- An inode index exposing the `worldRead60` file at inode 2. -/
def fsRead60 : WinbackupFS := ⟨[(2, .file 2 fsInfoA60)], [], 0⟩

/-- Two archives both holding `x\a`, at distinct times 100 and 200. -/
def worldTwo : World := fun s =>
  if s = archA then .valid [⟨false, pathXA, 100, 3, [1, 2, 3]⟩]
  else if s = archB then .valid [⟨false, pathXA, 200, 4, [4, 5, 6, 7]⟩]
  else .unreadable

/-- The candidate `worldTwo` contributes from archive `A`. -/
def candA : FSEntryInfo := ⟨⟨100, 3⟩, ⟨archA, 0⟩⟩

/-- The candidate `worldTwo` contributes from archive `B`. -/
def candB : FSEntryInfo := ⟨⟨200, 4⟩, ⟨archB, 0⟩⟩

/-- A tree where `x` is a directory whose child `a` is a directory with
a subtree (used to witness the replace-on-conflict behavior). -/
def treeReplace : FSEntry :=
  .directory 1 [(['x'], .directory 2 [(['a'], .directory 3 [(['z'], .file 4 fsInfoA)])])]

/-- A tree where `x` is a directory whose child `a` is a file (used to
witness the walk-stops-on-file behavior). -/
def treeBlocked : FSEntry :=
  .directory 1 [(['x'], .directory 2 [(['a'], .file 3 fsInfoA)])]

/-! ### Association-list lemmas -/

theorem assocLookup_insert_self {α β : Type} [DecidableEq α]
    (l : List (α × β)) (k : α) (v : β) :
    assocLookup (assocInsert l k v) k = some v := by
  induction l with
  | nil => simp [assocInsert, assocLookup]
  | cons kv rest ih =>
    obtain ⟨k', v'⟩ := kv
    by_cases h : k' = k
    · subst h; simp [assocInsert, assocLookup]
    · simp [assocInsert, assocLookup, h, ih]

theorem assocLookup_insert_ne {α β : Type} [DecidableEq α]
    (l : List (α × β)) (k k₂ : α) (v : β) (h : k ≠ k₂) :
    assocLookup (assocInsert l k v) k₂ = assocLookup l k₂ := by
  induction l with
  | nil => simp [assocInsert, assocLookup, h]
  | cons kv rest ih =>
    obtain ⟨k', v'⟩ := kv
    by_cases hk : k' = k
    · subst hk; simp [assocInsert, assocLookup, h]
    · simp [assocInsert, assocLookup, hk, ih]

/-! ### Read-engine evaluation lemmas -/

/-- A read that cannot reuse handle state (vacant handle or non-viable
state) on a resolvable `File` inode opens fresh state and serves
`content[offset .. offset+size)`. -/
theorem read_fresh (w : World) (fs : WinbackupFS) (ino fh offset size i : Nat)
    (info : FSEntryInfo) (content : List Nat)
    (hst : ∀ a, assocLookup fs.handlers fh = some a → a.is_viable offset = false)
    (hino : assocLookup fs.filesystem ino = some (.file i info))
    (hopen : OwnedZipFileBytes.open w info.source.archive info.source.file_id
      = some content) :
    WinbackupFS.read w fs ino fh offset size =
      some (.data ((content.drop offset).take size),
        { fs with handlers :=
            assocInsert fs.handlers fh ⟨offset + size, content.drop (offset + size)⟩ }) := by
  unfold WinbackupFS.read
  have hviable :
      (match assocLookup fs.handlers fh with
        | some a => if a.is_viable offset then some a else none
        | none => none) = (none : Option OpenedArchive) := by
    cases h : assocLookup fs.handlers fh with
    | none => rfl
    | some a => simp [hst a h]
  rw [hviable]
  have hop : OpenedArchive.open w info.source = some ⟨0, content⟩ := by
    simp [OpenedArchive.open, hopen]
  simp [hino, hop, OpenedArchive.read_bytes]

/-- A read whose handle holds viable state continues the stream without
consulting the inode. -/
theorem read_viable (w : World) (fs : WinbackupFS) (ino fh offset size : Nat)
    (a : OpenedArchive)
    (ha : assocLookup fs.handlers fh = some a)
    (hv : a.offset ≤ offset) :
    WinbackupFS.read w fs ino fh offset size =
      some (.data ((a.content.drop (offset - a.offset)).take size),
        { fs with handlers :=
            assocInsert fs.handlers fh ⟨offset + size, a.content.drop ((offset - a.offset) + size)⟩ }) := by
  unfold WinbackupFS.read
  have hviable :
      (match assocLookup fs.handlers fh with
        | some a => if a.is_viable offset then some a else none
        | none => none) = some a := by
    simp [ha, OpenedArchive.is_viable, hv]
  rw [hviable]
  simp [OpenedArchive.read_bytes]

/-- A read that must open fresh state replies `ENOENT` when the inode
does not resolve to a `File` node, leaving the state untouched. -/
theorem read_not_file (w : World) (fs : WinbackupFS) (ino fh offset size : Nat)
    (hst : ∀ a, assocLookup fs.handlers fh = some a → a.is_viable offset = false)
    (hino : ∀ i info, assocLookup fs.filesystem ino ≠ some (.file i info)) :
    WinbackupFS.read w fs ino fh offset size = some (.enoent, fs) := by
  unfold WinbackupFS.read
  have hviable :
      (match assocLookup fs.handlers fh with
        | some a => if a.is_viable offset then some a else none
        | none => none) = (none : Option OpenedArchive) := by
    cases h : assocLookup fs.handlers fh with
    | none => rfl
    | some a => simp [hst a h]
  rw [hviable]
  cases hfs : assocLookup fs.filesystem ino with
  | none => rfl
  | some e =>
    cases e with
    | file i info => exact absurd hfs (hino i info)
    | directory i es => rfl

/-! ### Claim C10 -/

/-- C10: a lookup whose name argument is not valid UTF-8 (`to_str`
fails, modelled by `none`) replies with the uniform not-found signal,
even when the parent inode resolves to a `Directory`. -/
theorem C10_lookup_non_utf8_enoent (fs : WinbackupFS) (parent i : Nat)
    (entries : List (Str × FSEntry))
    (h : assocLookup fs.filesystem parent = some (.directory i entries)) :
    fs.lookup parent none = .enoent := by
  unfold WinbackupFS.lookup
  rw [h]

theorem C10_lookup_non_utf8_enoent_witness :
    WinbackupFS.lookup ⟨[(1, .directory 1 [])], [], 0⟩ 1 none = .enoent :=
  C10_lookup_non_utf8_enoent ⟨[(1, .directory 1 [])], [], 0⟩ 1 1 [] rfl

/-! ### Claim C3 -/

/-- C3 counterexample: when the handle already holds live viable decoder
state, `read` serves data from it without consulting the inode — here
inode 99 is not even in the index, yet the reply is data, not the
not-found signal the claim requires. -/
theorem C3_cex :
    assocLookup fsStale.filesystem 99 = none ∧
    (WinbackupFS.read worldRead fsStale 99 7 0 2).map Prod.fst =
      some (.data [1, 2]) := by
  exact ⟨rfl, rfl⟩

/-- C3 amended: when the read cannot reuse handle state (the handle is
vacant, or its state is not viable for the offset) and the inode does
not resolve to a `File` node, the read replies with the uniform
not-found signal and never crashes, leaving the state unchanged. -/
theorem C3_read_unknown_ino_enoent (w : World) (fs : WinbackupFS)
    (ino fh offset size : Nat)
    (hst : ∀ a, assocLookup fs.handlers fh = some a → a.is_viable offset = false)
    (hino : ∀ i info, assocLookup fs.filesystem ino ≠ some (.file i info)) :
    WinbackupFS.read w fs ino fh offset size = some (.enoent, fs) :=
  read_not_file w fs ino fh offset size hst hino

theorem C3_read_unknown_ino_enoent_witness :
    WinbackupFS.read worldRead ⟨[], [], 0⟩ 5 0 0 4 = some (.enoent, ⟨[], [], 0⟩) :=
  C3_read_unknown_ino_enoent worldRead ⟨[], [], 0⟩ 5 0 0 4
    (fun _ h => Option.noConfusion h) (fun _ _ h => Option.noConfusion h)

/-! ### Claim C4 -/

/-- C4 counterexample: a short read of 40 bytes on a 30-byte entry
returns 30 bytes but sets the handle offset to `0 + 40`, not `0 + 30`;
the offset advances by the requested length, not the returned length. -/
theorem C4_cex :
    (WinbackupFS.read worldRead fsRead 2 0 0 40).map
      (fun r => (r.1, assocLookup r.2.handlers 0)) =
      some (.data (List.range 30), some ⟨40, []⟩) ∧
    (40 : Nat) ≠ 0 + (List.range 30).length := by
  exact ⟨rfl, by decide⟩

/-- C4 amended: after every read call that replies data, the handle's
`current_offset` equals `offset + size` where `size` is the *requested*
length (not the number of bytes actually returned). -/
theorem C4_offset_advances_by_requested (w : World) (fs fs' : WinbackupFS)
    (ino fh offset size : Nat) (bytes : List Nat)
    (h : WinbackupFS.read w fs ino fh offset size = some (.data bytes, fs')) :
    ∃ a, assocLookup fs'.handlers fh = some a ∧ a.offset = offset + size := by
  simp only [WinbackupFS.read] at h
  split at h
  · simp only [Option.some.injEq, Prod.mk.injEq, ReadReply.data.injEq] at h
    obtain ⟨-, hfs⟩ := h
    subst hfs
    exact ⟨_, assocLookup_insert_self _ _ _, rfl⟩
  · split at h
    · split at h
      · simp only [Option.some.injEq, Prod.mk.injEq, ReadReply.data.injEq] at h
        obtain ⟨-, hfs⟩ := h
        subst hfs
        exact ⟨_, assocLookup_insert_self _ _ _, rfl⟩
      · exact absurd h (by simp)
    · simp only [Option.some.injEq, Prod.mk.injEq] at h
      exact absurd h.1 (by simp)

theorem C4_offset_advances_by_requested_witness :
    ∃ a, assocLookup
      ((WinbackupFS.read worldRead fsRead 2 0 0 40).get rfl).2.handlers 0 = some a ∧
      a.offset = 0 + 40 :=
  C4_offset_advances_by_requested worldRead fsRead _ 2 0 0 40 (List.range 30) rfl

/-! ### Claim C5 -/

/-- C5 counterexample: inode 2 is a `File` whose source archive has
vanished; the read panics (`none`) instead of replying with the uniform
not-found signal. -/
theorem C5_cex : WinbackupFS.read worldRead fsVanished 2 0 0 4 = none := rfl

/-- C5 amended: when fresh state must be opened (vacant handle or
non-viable state) for a `File` inode whose source can no longer be
opened or decoded, the read panics (`OwnedZipFileBytes::open` unwraps);
no reply — not-found or otherwise — is produced, and the handle table is
left as it was (stale state is not discarded before the panic). -/
theorem C5_unresolvable_source_panics (w : World) (fs : WinbackupFS)
    (ino fh offset size i : Nat) (info : FSEntryInfo)
    (hst : ∀ a, assocLookup fs.handlers fh = some a → a.is_viable offset = false)
    (hino : assocLookup fs.filesystem ino = some (.file i info))
    (hopen : OpenedArchive.open w info.source = none) :
    WinbackupFS.read w fs ino fh offset size = none := by
  unfold WinbackupFS.read
  have hviable :
      (match assocLookup fs.handlers fh with
        | some a => if a.is_viable offset then some a else none
        | none => none) = (none : Option OpenedArchive) := by
    cases h : assocLookup fs.handlers fh with
    | none => rfl
    | some a => simp [hst a h]
  rw [hviable]
  simp [hino, hopen]

theorem C5_unresolvable_source_panics_witness :
    WinbackupFS.read worldRead fsVanished 2 0 0 4 = none :=
  C5_unresolvable_source_panics worldRead fsVanished 2 0 0 4 2 ⟨⟨100, 30⟩, ⟨archB, 0⟩⟩
    (fun _ h => Option.noConfusion h) rfl rfl

/-! ### Claim C2 -/

/-- C2 counterexample: archive `A` is unreadable (`fs::File::open`
fails); scanning it panics and aborts the whole startup scan — archive
`B`, which alone would produce a tree, is never scanned. -/
theorem C2_cex :
    parse_multiple_archives worldUnreadable [archA, archB] = none ∧
    (parse_multiple_archives worldUnreadable [archB]).isSome = true :=
  ⟨rfl, rfl⟩

theorem collectInto_corrupt (w : World) (c : Str) (hc : w c = .corrupt)
    (ys : List Str) : ∀ (xs : List Str) (gs : List (Str × List FSEntryInfo)),
    collectInto w gs (xs ++ c :: ys) = collectInto w gs (xs ++ ys) := by
  intro xs
  induction xs with
  | nil =>
    intro gs
    simp [collectInto, rough_file_info, hc]
  | cons x xt ih =>
    intro gs
    simp only [List.cons_append, collectInto]
    cases h : rough_file_info w x with
    | none => rfl
    | some r =>
      cases r with
      | error e => exact ih _
      | ok files => exact ih _

/-- C2 amended: an archive whose *container is corrupt*
(`ZipArchive::new` fails) contributes zero candidates and is skipped,
and the scan of every other archive still runs to completion — removing
it from the source list leaves the result unchanged.  (An *unreadable*
archive file, by contrast, panics and aborts the whole scan, see the
counterexample.) -/
theorem C2_corrupt_archive_skipped (w : World) (xs ys : List Str) (c : Str)
    (hc : w c = .corrupt) :
    parse_multiple_archives w (xs ++ c :: ys) = parse_multiple_archives w (xs ++ ys) := by
  unfold parse_multiple_archives collectGroups
  rw [collectInto_corrupt w c hc ys xs []]

theorem C2_corrupt_archive_skipped_witness :
    parse_multiple_archives (fun s => if s = archA then .corrupt else worldUnreadable s)
      [archB, archA] =
    parse_multiple_archives (fun s => if s = archA then .corrupt else worldUnreadable s)
      [archB] :=
  C2_corrupt_archive_skipped _ [archB] [] archA (by simp [archA, archB])

/-! ### Claims C6 and C7 -/

/-- C6: for a file of decoded size at least 20, reading `[0,10)` then
`[10,20)` on the same (initially fresh) handle yields byte sequences
whose concatenation equals a single read of `[0,20)` on a fresh handle
for the same file. -/
theorem C6_forward_reads_concat (w : World) (fs : WinbackupFS)
    (ino fh fh' i : Nat) (info : FSEntryInfo) (content : List Nat)
    (hfh : assocLookup fs.handlers fh = none)
    (hfh' : assocLookup fs.handlers fh' = none)
    (hino : assocLookup fs.filesystem ino = some (.file i info))
    (hopen : OwnedZipFileBytes.open w info.source.archive info.source.file_id
      = some content)
    (_hlen : 20 ≤ content.length) :
    ∃ b₁ b₂ b fs₁ fs₂ fs₃,
      WinbackupFS.read w fs ino fh 0 10 = some (.data b₁, fs₁) ∧
      WinbackupFS.read w fs₁ ino fh 10 10 = some (.data b₂, fs₂) ∧
      WinbackupFS.read w fs ino fh' 0 20 = some (.data b, fs₃) ∧
      b₁ ++ b₂ = b := by
  have h1 := read_fresh w fs ino fh 0 10 i info content
    (fun a ha => absurd ha (by simp [hfh])) hino hopen
  set fs₁ : WinbackupFS :=
    { fs with handlers := assocInsert fs.handlers fh ⟨0 + 10, content.drop (0 + 10)⟩ }
    with hfs₁
  have hlook : assocLookup fs₁.handlers fh = some ⟨0 + 10, content.drop (0 + 10)⟩ := by
    simp [hfs₁, assocLookup_insert_self]
  have h2 := read_viable w fs₁ ino fh 10 10 ⟨0 + 10, content.drop (0 + 10)⟩ hlook (by simp)
  have h3 := read_fresh w fs ino fh' 0 20 i info content
    (fun a ha => absurd ha (by simp [hfh'])) hino hopen
  refine ⟨_, _, _, _, _, _, h1, h2, h3, ?_⟩
  simp only [Nat.zero_add, Nat.sub_self, List.drop_zero]
  rw [show (20 : Nat) = 10 + 10 from rfl, List.take_add]

/-- C7: after reading `[50,10)` on a fresh handle, a second read of
`[0,10)` on the same handle is a backward seek: the handle state is
discarded, decoding restarts from the start of the entry, and the bytes
returned equal those of a read of `[0,10)` on a fresh handle. -/
theorem C7_backward_seek_reopens (w : World) (fs : WinbackupFS)
    (ino fh fh' i : Nat) (info : FSEntryInfo) (content : List Nat)
    (hfh : assocLookup fs.handlers fh = none)
    (hfh' : assocLookup fs.handlers fh' = none)
    (hino : assocLookup fs.filesystem ino = some (.file i info))
    (hopen : OwnedZipFileBytes.open w info.source.archive info.source.file_id
      = some content)
    (_hlen : 60 ≤ content.length) :
    ∃ b₀ b₂ b fs₁ fs₂ fs₃,
      WinbackupFS.read w fs ino fh 50 10 = some (.data b₀, fs₁) ∧
      WinbackupFS.read w fs₁ ino fh 0 10 = some (.data b₂, fs₂) ∧
      WinbackupFS.read w fs ino fh' 0 10 = some (.data b, fs₃) ∧
      b₂ = b := by
  have h1 := read_fresh w fs ino fh 50 10 i info content
    (fun a ha => absurd ha (by simp [hfh])) hino hopen
  set fs₁ : WinbackupFS :=
    { fs with handlers := assocInsert fs.handlers fh ⟨50 + 10, content.drop (50 + 10)⟩ }
    with hfs₁
  have hlook : assocLookup fs₁.handlers fh = some ⟨50 + 10, content.drop (50 + 10)⟩ := by
    simp [hfs₁, assocLookup_insert_self]
  have h2 := read_fresh w fs₁ ino fh 0 10 i info content
    (fun a ha => by
      rw [hlook] at ha
      cases ha
      simp [OpenedArchive.is_viable]) hino hopen
  have h3 := read_fresh w fs ino fh' 0 10 i info content
    (fun a ha => absurd ha (by simp [hfh'])) hino hopen
  exact ⟨_, _, _, _, _, _, h1, h2, h3, rfl⟩

theorem C6_forward_reads_concat_witness :
    ∃ b₁ b₂ b fs₁ fs₂ fs₃,
      WinbackupFS.read worldRead fsRead 2 0 0 10 = some (.data b₁, fs₁) ∧
      WinbackupFS.read worldRead fs₁ 2 0 10 10 = some (.data b₂, fs₂) ∧
      WinbackupFS.read worldRead fsRead 2 1 0 20 = some (.data b, fs₃) ∧
      b₁ ++ b₂ = b :=
  C6_forward_reads_concat worldRead fsRead 2 0 1 2 fsInfoA (List.range 30)
    rfl rfl rfl rfl (by decide)

theorem C7_backward_seek_reopens_witness :
    ∃ b₀ b₂ b fs₁ fs₂ fs₃,
      WinbackupFS.read worldRead60 fsRead60 2 0 50 10 = some (.data b₀, fs₁) ∧
      WinbackupFS.read worldRead60 fs₁ 2 0 0 10 = some (.data b₂, fs₂) ∧
      WinbackupFS.read worldRead60 fsRead60 2 1 0 10 = some (.data b, fs₃) ∧
      b₂ = b :=
  C7_backward_seek_reopens worldRead60 fsRead60 2 0 1 2 fsInfoA60 (List.range 60)
    rfl rfl rfl rfl (by decide)

/-! ### Inode lemmas for claim C8 -/

theorem mem_inodesOfList_insert {es : List (Str × FSEntry)} {k : Str} {v : FSEntry}
    {x : Nat} (h : x ∈ inodesOfList (assocInsert es k v)) :
    x ∈ inodesOfList es ∨ x ∈ inodesOf v := by
  induction es with
  | nil =>
    simp only [assocInsert, inodesOfList, List.append_nil] at h
    exact .inr h
  | cons kv rest ih =>
    obtain ⟨k', v'⟩ := kv
    by_cases hk : k' = k
    · subst hk
      simp only [assocInsert, if_pos rfl, inodesOfList, List.mem_append] at h ⊢
      rcases h with h | h
      · exact .inr h
      · exact .inl (.inr h)
    · simp only [assocInsert, if_neg hk, inodesOfList, List.mem_append] at h ⊢
      rcases h with h | h
      · exact .inl (.inl h)
      · rcases ih h with h | h
        · exact .inl (.inr h)
        · exact .inr h

theorem inodesOf_sublist_of_lookup {es : List (Str × FSEntry)} {k : Str} {v : FSEntry}
    (h : assocLookup es k = some v) : (inodesOf v).Sublist (inodesOfList es) := by
  induction es with
  | nil => simp [assocLookup] at h
  | cons kv rest ih =>
    obtain ⟨k', v'⟩ := kv
    by_cases hk : k' = k
    · rw [show assocLookup ((k', v') :: rest) k = some v' by simp [assocLookup, hk]] at h
      cases h
      simp only [inodesOfList]
      exact List.sublist_append_left _ _
    · simp only [assocLookup, if_neg hk] at h
      simp only [inodesOfList]
      exact (ih h).trans (List.sublist_append_right _ _)

theorem inodesOfList_insert_none {es : List (Str × FSEntry)} {k : Str} {v : FSEntry}
    (h : assocLookup es k = none) :
    inodesOfList (assocInsert es k v) = inodesOfList es ++ inodesOf v := by
  induction es with
  | nil => simp [assocInsert, inodesOfList]
  | cons kv rest ih =>
    obtain ⟨k', v'⟩ := kv
    by_cases hk : k' = k
    · simp [assocLookup, hk] at h
    · simp only [assocLookup, if_neg hk] at h
      simp only [assocInsert, if_neg hk, inodesOfList, ih h, List.append_assoc]

theorem nodup_inodesOfList_insert_some {k : Str} {v : FSEntry}
    (hv : (inodesOf v).Nodup) :
    ∀ (es : List (Str × FSEntry)) (old : FSEntry),
    assocLookup es k = some old → (inodesOfList es).Nodup →
    (∀ x ∈ inodesOf v, x ∈ inodesOf old ∨ x ∉ inodesOfList es) →
    (inodesOfList (assocInsert es k v)).Nodup := by
  intro es
  induction es with
  | nil => intro old hl _ _; simp [assocLookup] at hl
  | cons kv rest ih =>
    obtain ⟨k', v'⟩ := kv
    intro old hl hes hcond
    by_cases hk : k' = k
    · subst hk
      rw [show assocLookup ((k', v') :: rest) k' = some v' by simp [assocLookup]] at hl
      cases hl
      simp only [assocInsert, if_pos rfl, inodesOfList] at hes hcond ⊢
      rw [List.nodup_append] at hes ⊢
      refine ⟨hv, hes.2.1, ?_⟩
      intro x hxv hxr
      rcases hcond x hxv with h | h
      · exact hes.2.2 h hxr
      · exact h (List.mem_append.mpr (.inr hxr))
    · simp only [assocLookup, if_neg hk] at hl
      simp only [assocInsert, if_neg hk, inodesOfList] at hes hcond ⊢
      rw [List.nodup_append] at hes ⊢
      refine ⟨hes.1, ih old hl hes.2.1 ?_, ?_⟩
      · intro x hxv
        rcases hcond x hxv with h | h
        · exact .inl h
        · exact .inr fun hx => h (List.mem_append.mpr (.inr hx))
      · intro x hxv' hxi
        rcases mem_inodesOfList_insert hxi with h | h
        · exact hes.2.2 hxv' h
        · rcases hcond x h with h2 | h2
          · exact hes.2.2 hxv' ((inodesOf_sublist_of_lookup hl).subset h2)
          · exact h2 (List.mem_append.mpr (.inl hxv'))

theorem nodup_inodesOfList_insert_none {es : List (Str × FSEntry)} {k : Str}
    {v : FSEntry}
    (hl : assocLookup es k = none)
    (hes : (inodesOfList es).Nodup) (hv : (inodesOf v).Nodup)
    (hcond : ∀ x ∈ inodesOf v, x ∉ inodesOfList es) :
    (inodesOfList (assocInsert es k v)).Nodup := by
  rw [inodesOfList_insert_none hl, List.nodup_append]
  exact ⟨hes, hv, fun x hx hx2 => hcond x hx2 hx⟩

theorem insertWalk_inv : ∀ (segs : List Str) (t : FSEntry) (c : Nat) (name : Str)
    (pl : FSEntryInfo),
    (∀ x ∈ inodesOf t, x < c) → (inodesOf t).Nodup →
    c ≤ (insertWalk t c segs name pl).2 ∧
    (∀ x ∈ inodesOf (insertWalk t c segs name pl).1,
      x < (insertWalk t c segs name pl).2) ∧
    (inodesOf (insertWalk t c segs name pl).1).Nodup ∧
    (∀ x ∈ inodesOf (insertWalk t c segs name pl).1, x ∈ inodesOf t ∨ c ≤ x) := by
  intro segs
  induction segs with
  | nil =>
    intro t c name pl hb hn
    cases t with
    | file i p =>
      simp only [insertWalk]
      exact ⟨Nat.le_refl c, hb, hn, fun x hx => .inl hx⟩
    | directory i es =>
      simp only [insertWalk, inodesOf] at hb hn ⊢
      have hmem : ∀ x ∈ inodesOfList (assocInsert es name (FSEntry.file c pl)),
          x ∈ inodesOfList es ∨ x = c := by
        intro x hx
        rcases mem_inodesOfList_insert hx with h | h
        · exact .inl h
        · simp only [inodesOf, List.mem_singleton] at h
          exact .inr h
      refine ⟨Nat.le_succ c, ?_, ?_, ?_⟩
      · intro x hx
        rcases List.mem_cons.mp hx with h | h
        · exact lt_trans (hb x (h ▸ List.mem_cons_self i _)) (Nat.lt_succ_self c)
        · rcases hmem x h with h2 | h2
          · exact lt_trans (hb x (List.mem_cons_of_mem i h2)) (Nat.lt_succ_self c)
          · exact h2 ▸ Nat.lt_succ_self c
      · rw [List.nodup_cons]
        obtain ⟨hni, hnes⟩ := List.nodup_cons.mp hn
        constructor
        · intro hcontra
          rcases hmem i hcontra with h | h
          · exact hni h
          · exact absurd (hb i (List.mem_cons_self i _)) (by simp [h])
        · cases hlk : assocLookup es name with
          | some old =>
            refine nodup_inodesOfList_insert_some (by simp [inodesOf]) es old hlk hnes ?_
            intro x hx
            simp only [inodesOf, List.mem_singleton] at hx
            subst hx
            exact .inr fun hc => absurd (hb x (List.mem_cons_of_mem i hc)) (lt_irrefl x)
          | none =>
            refine nodup_inodesOfList_insert_none hlk hnes (by simp [inodesOf]) ?_
            intro x hx
            simp only [inodesOf, List.mem_singleton] at hx
            subst hx
            exact fun hc => absurd (hb x (List.mem_cons_of_mem i hc)) (lt_irrefl x)
      · intro x hx
        rcases List.mem_cons.mp hx with h | h
        · exact .inl (h ▸ List.mem_cons_self i _)
        · rcases hmem x h with h2 | h2
          · exact .inl (List.mem_cons_of_mem i h2)
          · exact .inr (h2 ▸ Nat.le_refl c)
  | cons s rest ih =>
    intro t c name pl hb hn
    cases t with
    | file i p =>
      simp only [insertWalk]
      exact ⟨Nat.le_refl c, hb, hn, fun x hx => .inl hx⟩
    | directory i es =>
      simp only [inodesOf] at hb hn
      obtain ⟨hni, hnes⟩ := List.nodup_cons.mp hn
      cases hlk : assocLookup es s with
      | some child =>
        have hsub := inodesOf_sublist_of_lookup hlk
        have hbc : ∀ x ∈ inodesOf child, x < c :=
          fun x hx => hb x (List.mem_cons_of_mem i (hsub.subset hx))
        have hnc : (inodesOf child).Nodup := hnes.sublist hsub
        obtain ⟨h1, h2, h3, h4⟩ := ih child c name pl hbc hnc
        simp only [insertWalk, hlk, inodesOf]
        refine ⟨h1, ?_, ?_, ?_⟩
        · intro x hx
          rcases List.mem_cons.mp hx with h | h
          · exact h ▸ lt_of_lt_of_le (hb i (List.mem_cons_self i _)) h1
          · rcases mem_inodesOfList_insert h with h5 | h5
            · exact lt_of_lt_of_le (hb x (List.mem_cons_of_mem i h5)) h1
            · exact h2 x h5
        · rw [List.nodup_cons]
          constructor
          · intro hcontra
            rcases mem_inodesOfList_insert hcontra with h | h
            · exact hni h
            · rcases h4 i h with h5 | h5
              · exact hni (hsub.subset h5)
              · exact absurd (hb i (List.mem_cons_self i _)) (Nat.not_lt.mpr h5)
          · refine nodup_inodesOfList_insert_some h3 es child hlk hnes ?_
            intro x hx
            rcases h4 x hx with h5 | h5
            · exact .inl h5
            · exact .inr fun hc =>
                absurd (hb x (List.mem_cons_of_mem i hc)) (Nat.not_lt.mpr h5)
        · intro x hx
          rcases List.mem_cons.mp hx with h | h
          · exact .inl (h ▸ List.mem_cons_self i _)
          · rcases mem_inodesOfList_insert h with h5 | h5
            · exact .inl (List.mem_cons_of_mem i h5)
            · rcases h4 x h5 with h6 | h6
              · exact .inl (List.mem_cons_of_mem i (hsub.subset h6))
              · exact .inr h6
      | none =>
        have hfresh : inodesOf (FSEntry.dir c) = [c] := by
          simp [FSEntry.dir, inodesOf, inodesOfList]
        obtain ⟨h1, h2, h3, h4⟩ := ih (FSEntry.dir c) (c + 1) name pl
          (by rw [hfresh]; intro x hx; simp only [List.mem_singleton] at hx
              exact hx ▸ Nat.lt_succ_self c)
          (by rw [hfresh]; exact List.nodup_singleton c)
        rw [hfresh] at h4
        simp only [insertWalk, hlk, inodesOf]
        have hcc : c ≤ (insertWalk (FSEntry.dir c) (c + 1) rest name pl).2 :=
          le_trans (Nat.le_succ c) h1
        refine ⟨hcc, ?_, ?_, ?_⟩
        · intro x hx
          rcases List.mem_cons.mp hx with h | h
          · exact h ▸ lt_of_lt_of_le (hb i (List.mem_cons_self i _)) hcc
          · rcases mem_inodesOfList_insert h with h5 | h5
            · exact lt_of_lt_of_le (hb x (List.mem_cons_of_mem i h5)) hcc
            · exact h2 x h5
        · rw [List.nodup_cons]
          constructor
          · intro hcontra
            rcases mem_inodesOfList_insert hcontra with h | h
            · exact hni h
            · rcases h4 i h with h5 | h5
              · simp only [List.mem_singleton] at h5
                exact absurd (hb i (List.mem_cons_self i _)) (by simp [h5])
              · exact absurd (hb i (List.mem_cons_self i _))
                  (Nat.not_lt.mpr (le_trans (Nat.le_succ c) h5))
          · refine nodup_inodesOfList_insert_none hlk hnes h3 ?_
            intro x hx hmem
            rcases h4 x hx with h5 | h5
            · simp only [List.mem_singleton] at h5
              exact absurd (hb x (List.mem_cons_of_mem i hmem)) (by simp [h5])
            · exact absurd (hb x (List.mem_cons_of_mem i hmem))
                (Nat.not_lt.mpr (le_trans (Nat.le_succ c) h5))
        · intro x hx
          rcases List.mem_cons.mp hx with h | h
          · exact .inl (h ▸ List.mem_cons_self i _)
          · rcases mem_inodesOfList_insert h with h5 | h5
            · exact .inl (List.mem_cons_of_mem i h5)
            · rcases h4 x h5 with h6 | h6
              · simp only [List.mem_singleton] at h6
                exact .inr (h6 ▸ Nat.le_refl c)
              · exact .inr (le_trans (Nat.le_succ c) h6)

theorem insertWalk_directory (i : Nat) (es : List (Str × FSEntry)) (c : Nat)
    (segs : List Str) (name : Str) (pl : FSEntryInfo) :
    ∃ es', (insertWalk (.directory i es) c segs name pl).1 = .directory i es' := by
  cases segs with
  | nil => exact ⟨_, rfl⟩
  | cons s rest =>
    cases hlk : assocLookup es s with
    | some child =>
      exact ⟨assocInsert es s (insertWalk child c rest name pl).1,
        by simp [insertWalk, hlk]⟩
    | none =>
      exact ⟨assocInsert es s (insertWalk (FSEntry.dir c) (c + 1) rest name pl).1,
        by simp [insertWalk, hlk]⟩

theorem buildStep_inv (acc : FSEntry × Nat) (kv : Str × List FSEntryInfo)
    (h : BuildInv acc) : BuildInv (buildStep acc kv) := by
  unfold buildStep
  cases maxByTimeLast kv.2 with
  | none => exact h
  | some info =>
    cases hr : rsplitOnce kv.1 with
    | none => exact h
    | some dn =>
      obtain ⟨d, name⟩ := dn
      obtain ⟨⟨es, hshape⟩, hc, hnd, hbd⟩ := h
      have hb : ∀ x ∈ inodesOf acc.1, x < acc.2 := by
        intro x hx
        rcases hbd x hx with h1 | h1
        · exact h1 ▸ lt_of_lt_of_le one_lt_two hc
        · exact h1.2
      obtain ⟨h1, h2, h3, h4⟩ := insertWalk_inv (splitSegs d) acc.1 acc.2 name info hb hnd
      refine ⟨?_, le_trans hc h1, h3, ?_⟩
      · rw [hshape]
        exact insertWalk_directory 1 es acc.2 (splitSegs d) name info
      · intro x hx
        rcases h4 x hx with h5 | h5
        · rcases hbd x h5 with h6 | h6
          · exact .inl h6
          · exact .inr ⟨h6.1, lt_of_lt_of_le h6.2 h1⟩
        · exact .inr ⟨le_trans hc h5, h2 x hx⟩

theorem foldl_buildStep_inv :
    ∀ (gs : List (Str × List FSEntryInfo)) (acc : FSEntry × Nat),
    BuildInv acc → BuildInv (gs.foldl buildStep acc) := by
  intro gs
  induction gs with
  | nil => intro acc h; exact h
  | cons kv rest ih => intro acc h; exact ih _ (buildStep_inv acc kv h)

/-! ### Claim C8 -/

/-- C8: in every tree produced by the tree builder, no two distinct
nodes carry the same inode (`inodesOf` lists each node's inode once and
is duplicate-free); the root is a directory with inode 1, and every
other node's inode is at least 2. -/
theorem C8_inode_uniqueness (w : World) (sources : List Str) (t : FSEntry)
    (h : parse_multiple_archives w sources = some t) :
    (inodesOf t).Nodup ∧ (∃ es, t = FSEntry.directory 1 es) ∧
    (∀ x ∈ inodesOf t, x = 1 ∨ 2 ≤ x) := by
  have hbase : BuildInv (FSEntry.dir 1, 2) := by
    refine ⟨⟨[], rfl⟩, Nat.le_refl 2, ?_, ?_⟩
    · simp [FSEntry.dir, inodesOf, inodesOfList]
    · intro x hx
      simp only [FSEntry.dir, inodesOf, inodesOfList, List.mem_singleton] at hx
      exact .inl hx
  unfold parse_multiple_archives at h
  cases hgs : collectGroups w sources with
  | none => rw [hgs] at h; cases h
  | some gs =>
    rw [hgs] at h
    simp only [Option.map_some', Option.some.injEq] at h
    obtain ⟨⟨es, hshape⟩, _, hnd, hbd⟩ := foldl_buildStep_inv gs (FSEntry.dir 1, 2) hbase
    subst h
    unfold buildFromGroups
    refine ⟨hnd, ⟨es, hshape⟩, ?_⟩
    intro x hx
    rcases hbd x hx with h1 | h1
    · exact .inl h1
    · exact .inr h1.1

theorem C8_inode_uniqueness_witness :
    (inodesOf (FSEntry.directory 1
      [(['x'], .directory 2 [(['a'], .file 3 fsInfoA)])])).Nodup ∧
    (∃ es, FSEntry.directory 1 [(['x'], .directory 2 [(['a'], .file 3 fsInfoA)])] =
      FSEntry.directory 1 es) ∧
    (∀ x ∈ inodesOf (FSEntry.directory 1
      [(['x'], .directory 2 [(['a'], .file 3 fsInfoA)])]), x = 1 ∨ 2 ≤ x) :=
  C8_inode_uniqueness worldRead [archA] _ rfl

/-! ### Path-navigation lemmas for claims C9 and C1 -/

theorem getPath_append : ∀ (p q : List Str) (t : FSEntry),
    getPath t (p ++ q) = (getPath t p).bind (fun e => getPath e q) := by
  intro p
  induction p with
  | nil => intro q t; simp [getPath]
  | cons u p' ih =>
    intro q t
    cases t with
    | file i pl => simp [getPath]
    | directory i es =>
      cases hlk : assocLookup es u with
      | none => simp [getPath, hlk]
      | some child => simp [getPath, hlk, ih]

theorem getPath_cons_some {t : FSEntry} {u : Str} {ps : List Str} {e : FSEntry}
    (h : getPath t (u :: ps) = some e) :
    ∃ i es child, t = .directory i es ∧ assocLookup es u = some child ∧
      getPath child ps = some e := by
  cases t with
  | file i p => simp [getPath] at h
  | directory i es =>
    cases hlk : assocLookup es u with
    | none => simp [getPath, hlk] at h
    | some child =>
      exact ⟨i, es, child, rfl, hlk, by simpa [getPath, hlk] using h⟩

theorem assocInsert_lookup_self {α β : Type} [DecidableEq α] :
    ∀ {l : List (α × β)} {k : α} {v : β},
    assocLookup l k = some v → assocInsert l k v = l := by
  intro l
  induction l with
  | nil => intro k v h; simp [assocLookup] at h
  | cons kv rest ih =>
    intro k v h
    obtain ⟨k', v'⟩ := kv
    by_cases hk : k' = k
    · subst hk
      rw [show assocLookup ((k', v') :: rest) k' = some v' by simp [assocLookup]] at h
      cases h
      simp [assocInsert]
    · simp only [assocLookup, if_neg hk] at h
      simp [assocInsert, if_neg hk, ih h]

theorem not_fileAt_empty_dir (i : Nat) (pos : List Str) :
    ¬ FileAt (.directory i []) pos := by
  rintro ⟨j, pl, h⟩
  cases pos with
  | nil => simp [getPath] at h
  | cons u rest => simp [getPath, assocLookup] at h

/-! ### Lemmas about the newest-candidate selection -/

theorem maxByTimeLast_mem : ∀ {l : List FSEntryInfo} {m : FSEntryInfo},
    maxByTimeLast l = some m → m ∈ l := by
  intro l
  induction l with
  | nil => intro m h; cases h
  | cons x xs ih =>
    intro m h
    simp only [maxByTimeLast] at h
    cases hx : maxByTimeLast xs with
    | none =>
      rw [hx] at h
      cases h
      exact List.mem_cons_self x xs
    | some m' =>
      rw [hx] at h
      simp only [Option.some.injEq] at h
      by_cases hc : m'.info.time < x.info.time
      · rw [if_pos hc] at h
        exact h ▸ List.mem_cons_self x xs
      · rw [if_neg hc] at h
        exact h ▸ List.mem_cons_of_mem x (ih hx)

theorem maxByTimeLast_ge : ∀ {l : List FSEntryInfo} {m : FSEntryInfo},
    maxByTimeLast l = some m → ∀ x ∈ l, x.info.time ≤ m.info.time := by
  intro l
  induction l with
  | nil => intro m h; cases h
  | cons x xs ih =>
    intro m h y hy
    simp only [maxByTimeLast] at h
    cases hx : maxByTimeLast xs with
    | none =>
      rw [hx] at h
      cases h
      rcases List.mem_cons.mp hy with h1 | h1
      · exact h1 ▸ le_refl _
      · cases xs with
        | nil => cases h1
        | cons a l =>
          exfalso
          have : maxByTimeLast (a :: l) ≠ none := by
            simp only [maxByTimeLast]
            cases maxByTimeLast l <;> simp
          exact this hx
    | some m' =>
      rw [hx] at h
      simp only [Option.some.injEq] at h
      rcases List.mem_cons.mp hy with h1 | h1
      · subst h1
        by_cases hc : m'.info.time < y.info.time
        · rw [if_pos hc] at h; exact h ▸ le_refl _
        · rw [if_neg hc] at h; exact h ▸ Int.not_lt.mp hc
      · have hle := ih hx y h1
        by_cases hc : m'.info.time < x.info.time
        · rw [if_pos hc] at h; exact h ▸ le_of_lt (lt_of_le_of_lt hle hc)
        · rw [if_neg hc] at h; exact h ▸ hle

theorem maxByTimeLast_isSome {l : List FSEntryInfo} (h : l ≠ []) :
    ∃ m, maxByTimeLast l = some m := by
  cases l with
  | nil => exact absurd rfl h
  | cons x xs =>
    simp only [maxByTimeLast]
    cases maxByTimeLast xs <;> exact ⟨_, rfl⟩

theorem maxByTimeLast_strict {l : List FSEntryInfo}
    (hp : l.Pairwise (fun a b => a.info.time ≠ b.info.time))
    {m : FSEntryInfo} (h : maxByTimeLast l = some m) :
    ∀ x ∈ l, x ≠ m → x.info.time < m.info.time := by
  intro x hx hne
  have hle := maxByTimeLast_ge h x hx
  have hmem := maxByTimeLast_mem h
  have hsymm : Symmetric (fun a b : FSEntryInfo => a.info.time ≠ b.info.time) :=
    fun a b hab => hab.symm
  exact lt_of_le_of_ne hle (List.Pairwise.forall hsymm hp hx hmem hne)

/-! ### Candidate-map key lemmas -/

theorem mem_keysOf_groupInsert : ∀ {gs : List (Str × List FSEntryInfo)} {k : Str}
    {v : FSEntryInfo} {x : Str},
    x ∈ keysOf (groupInsert gs k v) → x ∈ keysOf gs ∨ x = k := by
  intro gs
  induction gs with
  | nil =>
    intro k v x h
    simp only [groupInsert, keysOf, List.map_cons, List.map_nil,
      List.mem_singleton] at h
    exact .inr h
  | cons kv rest ih =>
    intro k v x h
    obtain ⟨k', vs⟩ := kv
    by_cases hk : k' = k
    · rw [show groupInsert ((k', vs) :: rest) k v = (k, vs ++ [v]) :: rest by
        simp [groupInsert, hk]] at h
      simp only [keysOf, List.map_cons, List.mem_cons] at h ⊢
      rcases h with h | h
      · exact .inr h
      · exact .inl (.inr h)
    · rw [show groupInsert ((k', vs) :: rest) k v = (k', vs) :: groupInsert rest k v by
        simp [groupInsert, hk]] at h
      simp only [keysOf, List.map_cons, List.mem_cons] at h ⊢
      rcases h with h | h
      · exact .inl (.inl h)
      · rcases ih h with h2 | h2
        · exact .inl (.inr h2)
        · exact .inr h2

theorem keys_nodup_groupInsert : ∀ {gs : List (Str × List FSEntryInfo)} {k : Str}
    {v : FSEntryInfo},
    (keysOf gs).Nodup → (keysOf (groupInsert gs k v)).Nodup := by
  intro gs
  induction gs with
  | nil => intro k v _; simp [groupInsert, keysOf]
  | cons kv rest ih =>
    intro k v h
    obtain ⟨k', vs⟩ := kv
    simp only [keysOf, List.map_cons, List.nodup_cons] at h
    by_cases hk : k' = k
    · rw [show groupInsert ((k', vs) :: rest) k v = (k, vs ++ [v]) :: rest by
        simp [groupInsert, hk]]
      simp only [keysOf, List.map_cons, List.nodup_cons]
      exact hk ▸ h
    · rw [show groupInsert ((k', vs) :: rest) k v = (k', vs) :: groupInsert rest k v by
        simp [groupInsert, hk]]
      simp only [keysOf, List.map_cons, List.nodup_cons]
      refine ⟨?_, ih h.2⟩
      intro hcontra
      rcases mem_keysOf_groupInsert hcontra with h2 | h2
      · exact h.1 h2
      · exact hk h2

theorem keys_nodup_addFiles (src : Str) : ∀ (fl : List FileRec)
    (gs : List (Str × List FSEntryInfo)),
    (keysOf gs).Nodup → (keysOf (addFiles src gs fl)).Nodup := by
  intro fl
  induction fl with
  | nil => intro gs h; exact h
  | cons f rest ih => intro gs h; exact ih _ (keys_nodup_groupInsert h)

theorem keys_nodup_collectInto (w : World) : ∀ (srcs : List Str)
    (gs gs' : List (Str × List FSEntryInfo)),
    (keysOf gs).Nodup → collectInto w gs srcs = some gs' → (keysOf gs').Nodup := by
  intro srcs
  induction srcs with
  | nil =>
    intro gs gs' h heq
    cases heq
    exact h
  | cons src rest ih =>
    intro gs gs' h heq
    simp only [collectInto] at heq
    cases hr : rough_file_info w src with
    | none => rw [hr] at heq; cases heq
    | some r =>
      rw [hr] at heq
      cases r with
      | error e => exact ih _ _ h heq
      | ok files => exact ih _ _ (keys_nodup_addFiles src files gs h) heq

theorem collectGroups_keys_nodup (w : World) (sources : List Str)
    (gs : List (Str × List FSEntryInfo)) (h : collectGroups w sources = some gs) :
    (keysOf gs).Nodup :=
  keys_nodup_collectInto w sources [] gs (by simp [keysOf]) h

theorem getPath_dir_cons {i : Nat} {es : List (Str × FSEntry)} {u : Str}
    {ps : List Str} {e : FSEntry}
    (h : getPath (.directory i es) (u :: ps) = some e) :
    ∃ child, assocLookup es u = some child ∧ getPath child ps = some e := by
  cases hlk : assocLookup es u with
  | none => simp [getPath, hlk] at h
  | some child => exact ⟨child, rfl, by simpa [getPath, hlk] using h⟩

theorem insertWalk_fileAt : ∀ (segs : List Str) (t : FSEntry) (c : Nat) (name : Str)
    (pl : FSEntryInfo) (pos : List Str),
    FileAt (insertWalk t c segs name pl).1 pos →
    FileAt t pos ∨ pos = segs ++ [name] := by
  intro segs
  induction segs with
  | nil =>
    intro t c name pl pos h
    cases t with
    | file i p => exact .inl h
    | directory i es =>
      obtain ⟨j, pl₂, hj⟩ := h
      simp only [insertWalk] at hj
      cases pos with
      | nil => simp [getPath] at hj
      | cons u pos' =>
        by_cases hu : u = name
        · subst hu
          cases pos' with
          | nil => exact .inr rfl
          | cons q qs =>
            simp only [getPath] at hj
            rw [assocLookup_insert_self] at hj
            simp [getPath] at hj
        · simp only [getPath] at hj
          rw [assocLookup_insert_ne es name u _ (fun h2 => hu h2.symm)] at hj
          exact .inl ⟨j, pl₂, by simp only [getPath]; exact hj⟩
  | cons s rest ih =>
    intro t c name pl pos h
    cases t with
    | file i p => exact .inl h
    | directory i es =>
      obtain ⟨j, pl₂, hj⟩ := h
      cases hlk : assocLookup es s with
      | some child =>
        simp only [insertWalk, hlk] at hj
        cases pos with
        | nil => simp [getPath] at hj
        | cons u pos' =>
          by_cases hu : u = s
          · subst hu
            simp only [getPath] at hj
            rw [assocLookup_insert_self] at hj
            rcases ih child c name pl pos' ⟨j, pl₂, hj⟩ with h3 | h3
            · obtain ⟨j₂, pl₃, hj₂⟩ := h3
              exact .inl ⟨j₂, pl₃, by simp only [getPath, hlk]; exact hj₂⟩
            · exact .inr (by rw [h3]; rfl)
          · simp only [getPath] at hj
            rw [assocLookup_insert_ne es s u _ (fun h2 => hu h2.symm)] at hj
            exact .inl ⟨j, pl₂, by simp only [getPath]; exact hj⟩
      | none =>
        simp only [insertWalk, hlk] at hj
        cases pos with
        | nil => simp [getPath] at hj
        | cons u pos' =>
          by_cases hu : u = s
          · subst hu
            simp only [getPath] at hj
            rw [assocLookup_insert_self] at hj
            rcases ih (FSEntry.dir c) (c + 1) name pl pos' ⟨j, pl₂, hj⟩ with h3 | h3
            · exact absurd h3 (not_fileAt_empty_dir c pos')
            · exact .inr (by rw [h3]; rfl)
          · simp only [getPath] at hj
            rw [assocLookup_insert_ne es s u _ (fun h2 => hu h2.symm)] at hj
            exact .inl ⟨j, pl₂, by simp only [getPath]; exact hj⟩

theorem insertWalk_getPath_inserted : ∀ (segs : List Str) (t : FSEntry) (c : Nat)
    (name : Str) (pl : FSEntryInfo),
    (∀ pos, pos <+: segs → ¬ FileAt t pos) →
    ∃ c', getPath (insertWalk t c segs name pl).1 (segs ++ [name]) =
      some (.file c' pl) := by
  intro segs
  induction segs with
  | nil =>
    intro t c name pl hno
    cases t with
    | file i p => exact absurd ⟨i, p, rfl⟩ (hno [] List.nil_prefix)
    | directory i es =>
      refine ⟨c, ?_⟩
      simp only [insertWalk, List.nil_append, getPath]
      rw [assocLookup_insert_self]
  | cons s rest ih =>
    intro t c name pl hno
    cases t with
    | file i p => exact absurd ⟨i, p, rfl⟩ (hno [] List.nil_prefix)
    | directory i es =>
      cases hlk : assocLookup es s with
      | some child =>
        have hchild : ∀ pos, pos <+: rest → ¬ FileAt child pos := by
          rintro pos ⟨u2, hu2⟩ ⟨j, q, hq⟩
          exact hno (s :: pos) ⟨u2, by rw [List.cons_append, hu2]⟩
            ⟨j, q, by simp only [getPath, hlk]; exact hq⟩
        obtain ⟨c', hc'⟩ := ih child c name pl hchild
        refine ⟨c', ?_⟩
        simp only [insertWalk, hlk, List.cons_append, getPath]
        rw [assocLookup_insert_self]
        exact hc'
      | none =>
        have hfresh : ∀ pos, pos <+: rest → ¬ FileAt (FSEntry.dir c) pos :=
          fun pos _ => not_fileAt_empty_dir c pos
        obtain ⟨c', hc'⟩ := ih (FSEntry.dir c) (c + 1) name pl hfresh
        refine ⟨c', ?_⟩
        simp only [insertWalk, hlk, List.cons_append, getPath]
        rw [assocLookup_insert_self]
        exact hc'

theorem insertWalk_preserve : ∀ (segs : List Str) (t : FSEntry) (c : Nat)
    (name : Str) (pl : FSEntryInfo) (P : List Str) (i₀ : Nat) (pl₀ : FSEntryInfo),
    getPath t P = some (.file i₀ pl₀) →
    ¬ (segs ++ [name]) <+: P →
    getPath (insertWalk t c segs name pl).1 P = some (.file i₀ pl₀) := by
  intro segs
  induction segs with
  | nil =>
    intro t c name pl P i₀ pl₀ hP hnp
    cases t with
    | file i p => exact hP
    | directory i es =>
      cases P with
      | nil => simp [getPath] at hP
      | cons u P' =>
        obtain ⟨child, hlk, hrest⟩ := getPath_dir_cons hP
        by_cases hu : u = name
        · subst hu
          exact absurd ⟨P', rfl⟩ hnp
        · simp only [insertWalk, getPath]
          rw [assocLookup_insert_ne es name u _ (fun h2 => hu h2.symm), hlk]
          exact hrest
  | cons s rest ih =>
    intro t c name pl P i₀ pl₀ hP hnp
    cases t with
    | file i p => exact hP
    | directory i es =>
      cases P with
      | nil => simp [getPath] at hP
      | cons u P' =>
        obtain ⟨child, hlk, hrest⟩ := getPath_dir_cons hP
        by_cases hu : u = s
        · subst hu
          simp only [insertWalk, hlk, getPath]
          rw [assocLookup_insert_self]
          refine ih child c name pl P' i₀ pl₀ hrest ?_
          rintro ⟨w', hw⟩
          refine hnp ⟨w', ?_⟩
          simp only [List.cons_append, List.append_assoc] at hw ⊢
          rw [hw]
        · cases hlk2 : assocLookup es s with
          | some child2 =>
            simp only [insertWalk, hlk2, getPath]
            rw [assocLookup_insert_ne es s u _ (fun h2 => hu h2.symm), hlk]
            exact hrest
          | none =>
            simp only [insertWalk, hlk2, getPath]
            rw [assocLookup_insert_ne es s u _ (fun h2 => hu h2.symm), hlk]
            exact hrest

theorem foldl_buildStep_files (S : List Str → Prop) :
    ∀ (L : List (Str × List FSEntryInfo)) (acc : FSEntry × Nat),
    (∀ pos, FileAt acc.1 pos → S pos) →
    (∀ kv ∈ L, ∀ dq nq, rsplitOnce kv.1 = some (dq, nq) →
      S (splitSegs dq ++ [nq])) →
    ∀ pos, FileAt ((L.foldl buildStep acc).1) pos → S pos := by
  intro L
  induction L with
  | nil => intro acc hacc _ pos h; exact hacc pos h
  | cons kv rest ih =>
    intro acc hacc hkv pos h
    refine ih (buildStep acc kv) ?_
      (fun kv2 h2 => hkv kv2 (List.mem_cons_of_mem _ h2)) pos h
    intro pos2 h2
    unfold buildStep at h2
    cases hm : maxByTimeLast kv.2 with
    | none => rw [hm] at h2; exact hacc pos2 h2
    | some info =>
      rw [hm] at h2
      cases hr : rsplitOnce kv.1 with
      | none => rw [hr] at h2; exact hacc pos2 h2
      | some dn =>
        rw [hr] at h2
        obtain ⟨d, n⟩ := dn
        rcases insertWalk_fileAt (splitSegs d) acc.1 acc.2 n info pos2 h2 with h3 | h3
        · exact hacc pos2 h3
        · exact h3 ▸ hkv kv (List.mem_cons_self _ _) d n hr

theorem foldl_buildStep_preserve (P : List Str) (i₀ : Nat) (pl₀ : FSEntryInfo) :
    ∀ (L : List (Str × List FSEntryInfo)) (acc : FSEntry × Nat),
    getPath acc.1 P = some (.file i₀ pl₀) →
    (∀ kv ∈ L, ∀ dq nq, rsplitOnce kv.1 = some (dq, nq) →
      ¬ (splitSegs dq ++ [nq]) <+: P) →
    getPath ((L.foldl buildStep acc).1) P = some (.file i₀ pl₀) := by
  intro L
  induction L with
  | nil => intro acc hacc _; exact hacc
  | cons kv rest ih =>
    intro acc hacc hkv
    refine ih (buildStep acc kv) ?_
      (fun kv2 h2 => hkv kv2 (List.mem_cons_of_mem _ h2))
    unfold buildStep
    cases hm : maxByTimeLast kv.2 with
    | none => exact hacc
    | some info =>
      cases hr : rsplitOnce kv.1 with
      | none => exact hacc
      | some dn =>
        obtain ⟨d, n⟩ := dn
        exact insertWalk_preserve (splitSegs d) acc.1 acc.2 n info P i₀ pl₀ hacc
          (hkv kv (List.mem_cons_self _ _) d n hr)

theorem insertWalk_replace_dir : ∀ (pre : List Str) (t : FSEntry) (c : Nat)
    (name : Str) (pl : FSEntryInfo) (i : Nat) (es : List (Str × FSEntry)),
    getPath t pre = some (.directory i es) →
    (insertWalk t c pre name pl).2 = c + 1 ∧
    getPath (insertWalk t c pre name pl).1 (pre ++ [name]) = some (.file c pl) := by
  intro pre
  induction pre with
  | nil =>
    intro t c name pl i es hP
    simp only [getPath, Option.some.injEq] at hP
    subst hP
    constructor
    · rfl
    · simp only [insertWalk, List.nil_append, getPath]
      rw [assocLookup_insert_self]
  | cons u pre' ih =>
    intro t c name pl i es hP
    obtain ⟨i₁, es₁, child, rfl, hlk, hrest⟩ := getPath_cons_some hP
    obtain ⟨h1, h2⟩ := ih child c name pl i es hrest
    constructor
    · simp only [insertWalk, hlk]
      exact h1
    · simp only [insertWalk, hlk, List.cons_append, getPath]
      rw [assocLookup_insert_self]
      exact h2

theorem insertWalk_blocked : ∀ (pre : List Str) (t : FSEntry) (c : Nat)
    (name : Str) (pl : FSEntryInfo) (s : Str) (post : List Str) (i : Nat)
    (es : List (Str × FSEntry)) (j : Nat) (q : FSEntryInfo),
    getPath t pre = some (.directory i es) →
    assocLookup es s = some (.file j q) →
    insertWalk t c (pre ++ s :: post) name pl = (t, c) := by
  intro pre
  induction pre with
  | nil =>
    intro t c name pl s post i es j q hP hlk
    simp only [getPath, Option.some.injEq] at hP
    subst hP
    simp only [List.nil_append, insertWalk, hlk]
    rw [assocInsert_lookup_self hlk]
  | cons u pre' ih =>
    intro t c name pl s post i es j q hP hlk
    obtain ⟨i₁, es₁, child, rfl, hlk₁, hrest⟩ := getPath_cons_some hP
    have hrec := ih child c name pl s post i es j q hrest hlk
    simp only [List.cons_append, insertWalk, hlk₁]
    have hX : insertWalk child c (List.append pre' (s :: post)) name pl = (child, c) := hrec
    rw [hX, assocInsert_lookup_self hlk₁]

/-! ### Claim C9 -/

/-- C9: tree construction never fails on kind conflicts.  (a) When the
winning file's directory chain resolves to an existing directory whose
child `name` is itself a `Directory`, the final insert replaces that
directory node — and with it its entire subtree — by the new `File`
node, consuming exactly one inode.  (b) When an intermediate segment of
the chain names an existing `File` child, the walk stops and the
winning file is silently not inserted: tree and inode counter come back
unchanged (the blocking file necessarily lives in the pre-existing
tree, so every directory present before the stop remains). -/
theorem C9_kind_conflicts (t : FSEntry) (c : Nat) (name : Str)
    (pl : FSEntryInfo) (pre post : List Str) (s : Str) :
    (∀ i es j sub, getPath t pre = some (.directory i es) →
      assocLookup es name = some (.directory j sub) →
      (insertWalk t c pre name pl).2 = c + 1 ∧
      getPath (insertWalk t c pre name pl).1 (pre ++ [name]) = some (.file c pl) ∧
      (∀ q qs, getPath (insertWalk t c pre name pl).1
        (pre ++ name :: q :: qs) = none)) ∧
    (∀ i es j q, getPath t pre = some (.directory i es) →
      assocLookup es s = some (.file j q) →
      insertWalk t c (pre ++ s :: post) name pl = (t, c)) := by
  constructor
  · intro i es j sub hP _hname
    obtain ⟨h1, h2⟩ := insertWalk_replace_dir pre t c name pl i es hP
    refine ⟨h1, h2, ?_⟩
    intro q qs
    have heq : pre ++ name :: q :: qs = (pre ++ [name]) ++ (q :: qs) := by simp
    rw [heq, getPath_append, h2]
    rfl
  · intro i es j q hP hlk
    exact insertWalk_blocked pre t c name pl s post i es j q hP hlk

theorem C9_kind_conflicts_witness :
    ((insertWalk treeReplace 10 [['x']] ['a'] fsInfoA).2 = 11 ∧
     getPath (insertWalk treeReplace 10 [['x']] ['a'] fsInfoA).1
       ([['x']] ++ [['a']]) = some (.file 10 fsInfoA) ∧
     (∀ q qs, getPath (insertWalk treeReplace 10 [['x']] ['a'] fsInfoA).1
       ([['x']] ++ ['a'] :: q :: qs) = none)) ∧
    insertWalk treeBlocked 10 ([['x']] ++ ['a'] :: []) ['n'] fsInfoA =
      (treeBlocked, 10) :=
  ⟨(C9_kind_conflicts treeReplace 10 ['a'] fsInfoA [['x']] [] ['a']).1 2
      [(['a'], .directory 3 [(['z'], .file 4 fsInfoA)])] 3
      [(['z'], .file 4 fsInfoA)] rfl rfl,
   (C9_kind_conflicts treeBlocked 10 ['n'] fsInfoA [['x']] [] ['a']).2 2
      [(['a'], .file 3 fsInfoA)] 3 fsInfoA rfl rfl⟩

/-! ### Claim C1 -/

/-- C1 counterexample: the separator-free path `a` appears in two
archives with distinct modification times (100 and 200), yet the built
tree is the bare root — it contains no `File` node for that path at all
(`rsplit_once('\\')` fails and the path is dropped). -/
theorem C1_cex :
    collectGroups worldNoSep [archA, archB] =
      some [(pathNoSep, [⟨⟨100, 3⟩, ⟨archA, 0⟩⟩, ⟨⟨200, 4⟩, ⟨archB, 0⟩⟩])] ∧
    parse_multiple_archives worldNoSep [archA, archB] =
      some (.directory 1 []) :=
  ⟨rfl, rfl⟩

/-- C1 amended: for every path `p = d\n` *that contains a separator*,
whose collected candidates span more than one archive and have
pairwise-distinct modification times, and such that *no other candidate
path's segment list is a prefix of p's* (no kind conflict can reach it),
the built tree contains the `File` node for `p` at its position,
carrying the `FileInfo` and `SourceRef` of the candidate with the
strictly greatest modification time. -/
theorem C1_newest_wins (w : World) (sources : List Str)
    (gs : List (Str × List FSEntryInfo)) (p d n : Str)
    (infos : List FSEntryInfo)
    (hgs : collectGroups w sources = some gs)
    (hmem : (p, infos) ∈ gs)
    (hsplit : rsplitOnce p = some (d, n))
    (hpre : ∀ q infq, (q, infq) ∈ gs → q ≠ p → ∀ dq nq,
      rsplitOnce q = some (dq, nq) →
      ¬ (splitSegs dq ++ [nq]) <+: (splitSegs d ++ [n]))
    (harch : ∃ e₁ e₂, e₁ ∈ infos ∧ e₂ ∈ infos ∧
      e₁.source.archive ≠ e₂.source.archive)
    (htimes : infos.Pairwise (fun a b => a.info.time ≠ b.info.time)) :
    ∃ ino best,
      maxByTimeLast infos = some best ∧ best ∈ infos ∧
      (∀ x ∈ infos, x ≠ best → x.info.time < best.info.time) ∧
      parse_multiple_archives w sources = some (buildFromGroups gs) ∧
      getPath (buildFromGroups gs) (splitSegs d ++ [n]) = some (.file ino best) := by
  have hne : infos ≠ [] := by
    obtain ⟨e₁, _, he₁, _, _⟩ := harch
    intro h
    rw [h] at he₁
    cases he₁
  obtain ⟨best, hbest⟩ := maxByTimeLast_isSome hne
  have hnodup := collectGroups_keys_nodup w sources gs hgs
  obtain ⟨pre₁, post₁, hsp⟩ := List.append_of_mem hmem
  subst hsp
  have hkeys : keysOf (pre₁ ++ (p, infos) :: post₁) =
      keysOf pre₁ ++ p :: keysOf post₁ := by simp [keysOf]
  rw [hkeys, List.nodup_append] at hnodup
  obtain ⟨hn1, hn2, hdisj⟩ := hnodup
  have hppost : p ∉ keysOf post₁ := (List.nodup_cons.mp hn2).1
  have hfiles := foldl_buildStep_files
    (fun pos => ∃ q infq, (q, infq) ∈ pre₁ ∧ ∃ dq nq,
      rsplitOnce q = some (dq, nq) ∧ pos = splitSegs dq ++ [nq])
    pre₁ (FSEntry.dir 1, 2)
    (fun pos h => absurd h (not_fileAt_empty_dir 1 pos))
    (fun kv hkv dq nq h => ⟨kv.1, kv.2, by simpa using hkv, dq, nq, h, rfl⟩)
  have hnof : ∀ pos, pos <+: splitSegs d →
      ¬ FileAt (pre₁.foldl buildStep (FSEntry.dir 1, 2)).1 pos := by
    intro pos hpos hfa
    obtain ⟨q, infq, hq, dq, nq, hq2, hpos2⟩ := hfiles pos hfa
    by_cases hqp : q = p
    · subst hqp
      rw [hsplit] at hq2
      cases hq2
      subst hpos2
      have hlen := hpos.length_le
      simp at hlen
    · refine hpre q infq (List.mem_append.mpr (.inl hq)) hqp dq nq hq2 ?_
      exact hpos2 ▸ (hpos.trans (List.prefix_append _ _))
  obtain ⟨c', hc'⟩ := insertWalk_getPath_inserted (splitSegs d)
    (pre₁.foldl buildStep (FSEntry.dir 1, 2)).1
    (pre₁.foldl buildStep (FSEntry.dir 1, 2)).2 n best hnof
  have hbs : buildStep (pre₁.foldl buildStep (FSEntry.dir 1, 2)) (p, infos) =
      insertWalk (pre₁.foldl buildStep (FSEntry.dir 1, 2)).1
        (pre₁.foldl buildStep (FSEntry.dir 1, 2)).2 (splitSegs d) n best := by
    simp only [buildStep, hbest, hsplit]
  have hpost : ∀ kv ∈ post₁, ∀ dq nq, rsplitOnce kv.1 = some (dq, nq) →
      ¬ (splitSegs dq ++ [nq]) <+: (splitSegs d ++ [n]) := by
    intro kv hkv dq nq hr
    refine hpre kv.1 kv.2
      (List.mem_append.mpr (.inr (List.mem_cons_of_mem _ (by simpa using hkv))))
      ?_ dq nq hr
    intro hqp
    exact hppost (hqp ▸ (List.mem_map.mpr ⟨kv, hkv, rfl⟩))
  have hfinal := foldl_buildStep_preserve (splitSegs d ++ [n]) c' best post₁
    (buildStep (pre₁.foldl buildStep (FSEntry.dir 1, 2)) (p, infos))
    (by rw [hbs]; exact hc') hpost
  refine ⟨c', best, hbest, maxByTimeLast_mem hbest,
    maxByTimeLast_strict htimes hbest, ?_, ?_⟩
  · unfold parse_multiple_archives
    rw [hgs]
    rfl
  · have hfold : buildFromGroups (pre₁ ++ (p, infos) :: post₁) =
        (post₁.foldl buildStep
          (buildStep (pre₁.foldl buildStep (FSEntry.dir 1, 2)) (p, infos))).1 := by
      unfold buildFromGroups
      rw [List.foldl_append, List.foldl_cons]
    rw [hfold]
    exact hfinal

theorem C1_newest_wins_witness :
    ∃ ino best,
      maxByTimeLast [candA, candB] = some best ∧ best ∈ [candA, candB] ∧
      (∀ x ∈ [candA, candB], x ≠ best → x.info.time < best.info.time) ∧
      parse_multiple_archives worldTwo [archA, archB] =
        some (buildFromGroups [(pathXA, [candA, candB])]) ∧
      getPath (buildFromGroups [(pathXA, [candA, candB])])
        (splitSegs ['x'] ++ [['a']]) = some (.file ino best) :=
  C1_newest_wins worldTwo [archA, archB] [(pathXA, [candA, candB])]
    pathXA ['x'] ['a'] [candA, candB] rfl (by simp) rfl
    (by
      intro q infq hq hne dq nq _
      simp only [List.mem_singleton, Prod.mk.injEq] at hq
      exact absurd hq.1 hne)
    ⟨candA, candB, by simp, by simp, by decide⟩
    (by decide)
